import Mathlib

/-!
Verification development for the MCTS node core of the Sayuri Go engine.

The definitions below are a shallow embedding of the C++ sources:
`Node` (mcts/node.cc), the LCB quantile table (mcts/lcb.h) and
`GameState::IsSuperko` (game/game_state.cc).  C++ `float`/`double`
statistics are embedded as exact rationals (the claims under study are
about the algebraic structure of the updates, not about rounding), and
the real-valued functions that genuinely use `sqrt`/`log`/`exp`
(the LCB machinery and the KL divergence) are embedded over `ℝ`.
External collaborators (the network, the board) enter as explicit
inputs: the network result fields and the board oracles (legality,
safe area, symmetry hashes) are packaged in `ExpandInput`, and the
forked game states used by the superko filter are packaged in
`SuperkoState`.
-/

namespace Sayuri

/-- Side to move.  The C++ code uses integer constants `kBlack`/`kWhite`;
only these two values reach the statistics readers. -/
inductive GoColor where
  | black
  | white
deriving DecidableEq, Repr

/-- ExpandState of a node (mcts/node.h, used by node.cc):
`kInitial --AcquireExpanding--> kExpanding --ExpandDone--> kExpanded`. -/
inductive ExpandState where
  | kInitial
  | kExpanding
  | kExpanded
deriving DecidableEq, Repr

/-- StatusType of a node: active, pruned, or invalid. -/
inductive StatusType where
  | kActive
  | kPruned
  | kInvalid
deriving DecidableEq, Repr

/-- Modelled from the spec: the pass vertex sentinel `kPass` is defined in
`game/types.h`, which is not among the sources; it is an integer distinct
from every board vertex ("Vertex: an integer encoding a board intersection
or the special values pass/resign").  Any fixed distinguished value serves. -/
def kPass : Int := -1

/-- A child slot of a node (`Node::Edge`): a vertex, a prior policy and a
lazily inflated node.  `inflated` models whether the owned node pointer is
non-null; `status` and `visits` model the owned node's fields (meaningful
only when `inflated` is true). -/
structure Edge where
  vertex : Int
  policy : ℚ
  inflated : Bool := false
  status : StatusType := StatusType.kActive
  visits : Nat := 0
deriving DecidableEq, Repr

/-- The state of one `Node`.  Fields mirror mcts/node.h as used by node.cc.
`color = none` models `color_ == kInvalid` (`HaveChildren()` is false). -/
structure NodeState where
  vertex : Int
  policy : ℚ
  color : Option GoColor := none
  expandState : ExpandState := ExpandState.kInitial
  status : StatusType := StatusType.kActive
  visits : Nat := 0
  accumulatedBlackWL : ℚ := 0
  accumulatedDraw : ℚ := 0
  accumulatedBlackFS : ℚ := 0
  squaredEvalDiff : ℚ := 0
  avgBlackOwnership : List ℚ := []
  runningThreads : Nat := 0
  blackWL : ℚ := 1/2
  children : List Edge := []
deriving DecidableEq, Repr

/-- Modelled from the spec: the constructor `Node::Node(vertex, policy)`
sets only `vertex_` and `policy_`; the remaining members are
default-initialized in mcts/node.h (not among the sources), per the spec:
"`visits == 0` at creation", `status` Active, `expand_state` Initial,
zero accumulators. -/
def mkNode (vertex : Int) (policy : ℚ) : NodeState :=
  { vertex := vertex, policy := policy }

/-- `Node::HaveChildren`: `color_ != kInvalid`. -/
def NodeState.haveChildren (s : NodeState) : Bool :=
  s.color.isSome

/-- `Node::AcquireExpanding`: compare-and-swap `kInitial → kExpanding`;
returns whether the CAS succeeded together with the new expand state. -/
def acquireExpanding (es : ExpandState) : Bool × ExpandState :=
  if es = ExpandState.kInitial then (true, ExpandState.kExpanding) else (false, es)

/-- The evaluation record produced by expansion and consumed by backup. -/
structure NodeEvals where
  blackWL : ℚ
  draw : ℚ
  blackFinalScore : ℚ
  blackOwnership : List ℚ
deriving DecidableEq, Repr

/-- The `WelfordDelta` lambda inside `Node::Update`:
`old_delta * new_delta` with `old_delta = 0` on the first visit. -/
def welfordDelta (eval oldAccEval : ℚ) (oldVisits : Nat) : ℚ :=
  let oldDelta : ℚ := if 0 < oldVisits then eval - oldAccEval / oldVisits else 0
  let newDelta : ℚ := eval - (oldAccEval + eval) / ((oldVisits : ℚ) + 1)
  oldDelta * newDelta

/-- `Node::Update(evals)`: one backup step.  Increments `visits_`, adds the
Welford delta to `squared_eval_diff_`, adds the evaluation to each
accumulator, and moves every per-intersection ownership mean by
`(eval_owner - avg_owner) / (old_visits + 1)`. -/
def NodeState.update (s : NodeState) (evals : NodeEvals) : NodeState :=
  let delta := welfordDelta evals.blackWL s.accumulatedBlackWL s.visits
  { s with
    visits := s.visits + 1
    squaredEvalDiff := s.squaredEvalDiff + delta
    accumulatedBlackWL := s.accumulatedBlackWL + evals.blackWL
    accumulatedDraw := s.accumulatedDraw + evals.draw
    accumulatedBlackFS := s.accumulatedBlackFS + evals.blackFinalScore
    avgBlackOwnership :=
      List.zipWith (fun avg own => avg + (own - avg) / ((s.visits : ℚ) + 1))
        s.avgBlackOwnership evals.blackOwnership }

/-- A sequence of `Node::Update` calls. -/
def applyUpdates (s : NodeState) (evs : List NodeEvals) : NodeState :=
  evs.foldl NodeState.update s

/-- `Node::GetVisits`. -/
def NodeState.getVisits (s : NodeState) : Nat :=
  s.visits

/-- `Node::GetVirtualLoss`: `VIRTUAL_LOSS_COUNT (= 3) * running_threads_`. -/
def NodeState.getVirtualLoss (s : NodeState) : Nat :=
  3 * s.runningThreads

/-- `Node::GetWL(color, use_virtual_loss)`: the accumulated Black win-loss
divided by (possibly virtual-loss-augmented) visits, flipped for White;
when reading for White with virtual loss, the virtual loss is also added
to the accumulator. -/
def NodeState.getWL (s : NodeState) (color : GoColor) (useVirtualLoss : Bool) : ℚ :=
  let virtualLoss : Nat := if useVirtualLoss then s.getVirtualLoss else 0
  let visits : ℚ := (s.getVisits : ℚ) + (virtualLoss : ℚ)
  let accumulatedWL : ℚ :=
    if color = GoColor.white ∧ useVirtualLoss then
      s.accumulatedBlackWL + (virtualLoss : ℚ)
    else s.accumulatedBlackWL
  let eval := accumulatedWL / visits
  match color with
  | GoColor.black => eval
  | GoColor.white => 1 - eval

/-- `Node::GetFinalScore(color)`: `accumulated_black_fs_ / GetVisits()`,
negated for White.  The division is unguarded in the source. -/
def NodeState.getFinalScore (s : NodeState) (color : GoColor) : ℚ :=
  let score := s.accumulatedBlackFS / (s.getVisits : ℚ)
  match color with
  | GoColor.black => score
  | GoColor.white => 0 - score

/-- `Node::GetDraw`: `accumulated_draw_ / GetVisits()`, unguarded. -/
def NodeState.getDraw (s : NodeState) : ℚ :=
  s.accumulatedDraw / (s.getVisits : ℚ)

/-- `Node::GetFinalScore` with the implicit division-by-zero precondition
made explicit: the fallible division is embedded as `Option`, `none`
being the (unguarded) division-by-zero branch of the source. -/
def NodeState.getFinalScoreChecked (s : NodeState) (color : GoColor) : Option ℚ :=
  if s.getVisits = 0 then none else some (s.getFinalScore color)

/-- `Node::GetDraw` with the division-by-zero branch made explicit. -/
def NodeState.getDrawChecked (s : NodeState) : Option ℚ :=
  if s.getVisits = 0 then none else some s.getDraw

/-- The inputs of `Node::ExpandChildren` coming from its collaborators:
the network result (`raw_netlist`), the board oracles (legality with the
"avoid" configuration folded in, the strict safe area, vertex encoding)
and the symmetry-hash oracles.  `symmHashes idx` packages, for the
candidate at `idx`, the seven values
`symm_base_hash[symm] ^ GetMoveHash(TransformVertex(symm, vtx), color)`
for the non-identity symmetries; `selfHash idx` packages
`state.GetHash() ^ state.GetMoveHash(vtx, color)`. `applySymmPruning`
packages `param_->symm_pruning && board_size >= move_number`. -/
structure ExpandInput where
  toMove : GoColor
  boardSize : Nat
  numIntersections : Nat
  probabilities : Nat → ℚ
  passProbability : ℚ
  netBlackWL : ℚ
  legal : Nat → Bool
  safeArea : Nat → Bool
  applySymmPruning : Bool
  symmHashes : Nat → List Nat
  selfHash : Nat → Nat
  idxToVtx : Nat → Int

/-- The loop state of the candidate loop in `Node::ExpandChildren`:
`nodelist`, `legal_accumulate` and `moves_hash`. -/
structure CandAccum where
  nodelist : List (ℚ × Int)
  legalAccumulate : ℚ
  movesHash : List Nat
deriving Repr

/-- One iteration of the candidate loop of `Node::ExpandChildren`
(lines 120-165): skip illegal / safe-area points; under symmetry pruning
drop the candidate when one of its symmetry hashes was already recorded,
still accumulating its policy into `legal_accumulate`; otherwise record
the candidate (and, under pruning, its move hash). -/
def candStep (inp : ExpandInput) (a : CandAccum) (idx : Nat) : CandAccum :=
  let vtx := inp.idxToVtx idx
  let policy := inp.probabilities idx
  if ¬(inp.legal idx = true) ∨ inp.safeArea idx = true then a
  else if inp.applySymmPruning then
    let hashFound := (inp.symmHashes idx).any (fun h => a.movesHash.contains h)
    if ¬(hashFound = true) then
      { nodelist := a.nodelist ++ [(policy, vtx)]
        legalAccumulate := a.legalAccumulate + policy
        movesHash := a.movesHash ++ [inp.selfHash idx] }
    else
      { a with legalAccumulate := a.legalAccumulate + policy }
  else
    { a with
      nodelist := a.nodelist ++ [(policy, vtx)]
      legalAccumulate := a.legalAccumulate + policy }

/-- The whole candidate loop of `Node::ExpandChildren`, iterating over the
board indices `0 .. num_intersections - 1`. -/
def buildCandidates (inp : ExpandInput) : CandAccum :=
  (List.range inp.numIntersections).foldl (candStep inp) ⟨[], 0, []⟩

/-- The descending ordering used by `LinkNodeList`:
`std::stable_sort(rbegin, rend)` on `std::pair<float, int>` places the
lexicographically largest pair first. -/
def pairDescGe (a b : ℚ × Int) : Prop :=
  b.1 < a.1 ∨ (b.1 = a.1 ∧ b.2 ≤ a.2)

instance : DecidableRel pairDescGe := fun a b => by
  unfold pairDescGe; infer_instance

/-- The sort performed by `Node::LinkNodeList`. -/
def sortNodelist (l : List (ℚ × Int)) : List (ℚ × Int) :=
  l.insertionSort pairDescGe

/-- `Node::LinkNodeList(nodelist)`: sort so the best policy is on top,
then materialize one (uninflated) edge per pair. -/
def linkNodeList (nodelist : List (ℚ × Int)) : List Edge :=
  (sortNodelist nodelist).map fun p =>
    { vertex := p.2, policy := p.1 }

/-- Lines 167-177 of `Node::ExpandChildren`: disable the pass move when
there are more than `3·N/4` candidates, but always add it when the
candidate list is empty; the pass probability joins `legal_accumulate`.
Returns the final `nodelist` with the final `legal_accumulate`. -/
def expandNodelist (inp : ExpandInput) : List (ℚ × Int) × ℚ :=
  let cands := buildCandidates inp
  let allowPass := ¬(cands.nodelist.length > 3 * inp.numIntersections / 4)
  if allowPass ∨ cands.nodelist.isEmpty = true then
    (cands.nodelist ++ [(inp.passProbability, kPass)],
     cands.legalAccumulate + inp.passProbability)
  else (cands.nodelist, cands.legalAccumulate)

/-- Lines 179-189 of `Node::ExpandChildren`: distribute uniformly when the
accumulated legal mass is below `1e-8`, otherwise divide each policy by
the accumulated mass. -/
def normalizedNodelist (inp : ExpandInput) : List (ℚ × Int) :=
  let wp := expandNodelist inp
  if wp.2 < 1 / 100000000 then
    wp.1.map (fun p => ((1 : ℚ) / (wp.1.length : ℚ), p.2))
  else
    wp.1.map (fun p => (p.1 / wp.2, p.2))

/-- `Node::ExpandChildren` (lines 67-198).  Returns the C++ return value
together with the post-state.  Refuses when the node already has children
or when `AcquireExpanding` fails; otherwise stores the candidate children
built by `expandNodelist`/`normalizedNodelist`/`linkNodeList` and
publishes `kExpanded`.  The network-output fields not examined by any
claim (`ApplyNetOutput`'s evals record, rollout refinement) are
represented by the stored `blackWL` and the zeroed ownership means. -/
def NodeState.expandChildren (s : NodeState) (inp : ExpandInput) : Bool × NodeState :=
  if s.haveChildren = true then (false, s)
  else if (acquireExpanding s.expandState).1 = false then (false, s)
  else
    (true,
     { s with
       color := some inp.toMove
       blackWL := inp.netBlackWL
       avgBlackOwnership := s.avgBlackOwnership.map (fun _ => (0 : ℚ))
       expandState := ExpandState.kExpanded
       children := linkNodeList (normalizedNodelist inp) })

/-- Sum of the prior policies stored in a children list. -/
def policySum (children : List Edge) : ℚ :=
  (children.map Edge.policy).sum

/-- `RationalApprox` (mcts/lcb.h): Abramowitz-Stegun formula 26.2.23. -/
noncomputable def rationalApproxAS (t : ℝ) : ℝ :=
  t - ((0.010328 * t + 0.802853) * t + 2.515517) /
        (((0.001308 * t + 0.189269) * t + 1.432788) * t + 1.0)

/-- `NormalCdfInverse` (mcts/lcb.h).  The source throws for
`p ≤ 0 ∨ p ≥ 1`; the configured complement probability keeps `p`
strictly inside `(0, 1)`, so the exception path is not embedded. -/
noncomputable def normalCdfInverse (p : ℝ) : ℝ :=
  if p < 0.5 then -(rationalApproxAS (Real.sqrt (-2.0 * Real.log p)))
  else rationalApproxAS (Real.sqrt (-2.0 * Real.log (1 - p)))

/-- `NormToTApprox` (mcts/lcb.h), KataGo's normal-to-t-quantile map. -/
noncomputable def normToTApprox (z degreesOfFreedom : ℝ) : ℝ :=
  if degreesOfFreedom > 8 then
    let n := degreesOfFreedom + 2 - 1
    Real.sqrt (n * Real.exp (z * z * (n - 1.5) / ((n - 1) * (n - 1))) - n)
  else
    let n := degreesOfFreedom + 2
    Real.sqrt (n * Real.exp (z * z * (n - 0.853999327911) /
      ((n - 1.044042304114) * (n - 0.954115472059))) - n)

/-- `LcbEntries::kEntrySize`. -/
def lcbEntrySize : Nat := 1000

/-- Entry `i` of the `LcbEntries` lookup table built at startup from the
configured complement probability:
`z_lookup_table_[i] = NormToTApprox(NormalCdfInverse(1 - α), i)`.
Only indices `i < lcbEntrySize` exist in the C++ table; `cachedTQuantile`
performs the clamping. -/
noncomputable def zLookupTable (complementProbability : ℝ) (i : Nat) : ℝ :=
  normToTApprox (normalCdfInverse (1 - complementProbability)) (i : ℝ)

/-- `LcbEntries::CachedTQuantile(v)`: `table[0]` for `v < 1`,
`table[v-1]` for `v < 1000`, and the last entry for every larger `v`. -/
noncomputable def cachedTQuantile (complementProbability : ℝ) (v : Int) : ℝ :=
  if v < 1 then zLookupTable complementProbability 0
  else if v < (lcbEntrySize : Int) then zLookupTable complementProbability (v - 1).toNat
  else zLookupTable complementProbability (lcbEntrySize - 1)

/-- `Node::GetLcbVariance(default_var, visits)`:
`squared_eval_diff_ / (visits - 1)` for `visits > 1`, else the default. -/
def NodeState.getLcbVariance (s : NodeState) (defaultVar : ℚ) (visits : Nat) : ℚ :=
  if 1 < visits then s.squaredEvalDiff / ((visits : ℚ) - 1) else defaultVar

/-- `Node::GetLcb(color)` (lines 674-691): prior minus `1e6` for
`visits ≤ 1`, otherwise `mean - z·sqrt(variance/visits)` with `z` the
cached t-quantile at `visits - 1`.  The table's complement probability is
passed explicitly (the C++ singleton is initialized once from the
configured `ci_alpha`). -/
noncomputable def NodeState.getLcb (s : NodeState) (color : GoColor)
    (complementProbability : ℝ) : ℝ :=
  let visits := s.getVisits
  if visits ≤ 1 then (s.policy : ℝ) - 1000000
  else
    let mean : ℝ := (s.getWL color false : ℚ)
    let variance : ℝ := (s.getLcbVariance 1 visits : ℚ)
    let stddev := Real.sqrt (variance / (visits : ℝ))
    let z := cachedTQuantile complementProbability ((visits : Int) - 1)
    mean - z * stddev

/-- The `parentvisits` accumulation of `Node::ComputeKlDivergence`:
visits summed over inflated, active children. -/
def klParentVisits (children : List Edge) : Nat :=
  children.foldl
    (fun acc e =>
      if e.inflated = true ∧ e.status = StatusType.kActive then acc + e.visits
      else acc) 0

/-- The `best_visits` accumulation of `Node::ComputeKlDivergence`:
starts at 0 and is overwritten by the visits of every inflated, active
child whose vertex equals the best move. -/
def klBestVisits (children : List Edge) (bestVtx : Int) : Nat :=
  children.foldl
    (fun acc e =>
      if e.inflated = true ∧ e.status = StatusType.kActive then
        (if e.vertex = bestVtx then e.visits else acc)
      else acc) 0

/-- `Node::ComputeKlDivergence` (lines 304-329), with the best move
(`GetBestMove()` in the source) passed explicitly: `0` when the best
child's visits equal the summed visits, `-1` when (otherwise) one of the
two counts is zero, else `-log(best/parent)`. -/
noncomputable def computeKlDivergence (children : List Edge) (bestVtx : Int) : ℝ :=
  let parentvisits := klParentVisits children
  let bestVisits := klBestVisits children bestVtx
  if parentvisits = bestVisits then 0
  else if parentvisits = 0 ∨ bestVisits = 0 then -1
  else -Real.log ((bestVisits : ℝ) / (parentvisits : ℝ))

/-- The slice of `GameState` used by the superko test: the ko-hash
history (`ko_hash_history_`, oldest first, the current position's hash at
the back) and the current ko hash (`GetKoHash()`). -/
structure SuperkoState where
  koHashHistory : List Nat
  koHash : Nat

/-- `GameState::IsSuperko` (game_state.cc lines 277-284): search the
history from the second-newest entry down to the oldest for the current
ko hash — that is, everything except the newest entry. -/
def SuperkoState.isSuperko (st : SuperkoState) : Bool :=
  decide (st.koHash ∈ st.koHashHistory.dropLast)

/-- `Node::Invalidate`: store `kInvalid` when the node `IsValid()`. -/
def invalidateStatus (st : StatusType) : StatusType :=
  if st ≠ StatusType.kInvalid then StatusType.kInvalid else st

/-- The predicate deciding which children `Node::KillRootSuperkos`
invalidates: a non-pass move whose forked, played-out state repeats a
position of the ko-hash history. -/
def superkoKill (forkPlay : Int → SuperkoState) (e : Edge) : Bool :=
  decide (e.vertex ≠ kPass) && (forkPlay e.vertex).isSuperko

/-- `Node::KillRootSuperkos(state)` (lines 1562-1581): mark every child
whose move repeats a position as invalid, then physically erase the
children that are not valid.  `forkPlay vtx` is the collaborator state
`fork_state` after `fork_state.PlayMove(vtx)`. -/
def killRootSuperkos (forkPlay : Int → SuperkoState) (children : List Edge) : List Edge :=
  let marked := children.map fun e =>
    if superkoKill forkPlay e = true then { e with status := invalidateStatus e.status }
    else e
  marked.filter fun e => decide (e.status ≠ StatusType.kInvalid)

/-! ### Helper lemmas -/

theorem zipWith_getD (f : ℚ → ℚ → ℚ) :
    ∀ (l1 l2 : List ℚ) (i : Nat), i < l1.length → i < l2.length →
      (List.zipWith f l1 l2).getD i 0 = f (l1.getD i 0) (l2.getD i 0)
  | [], _, i, h1, _ => by simp at h1
  | _ :: _, [], i, _, h2 => by simp at h2
  | a :: l1, b :: l2, 0, _, _ => by simp [List.getD]
  | a :: l1, b :: l2, i + 1, h1, h2 => by
      have h1' : i < l1.length := by simpa using h1
      have h2' : i < l2.length := by simpa using h2
      simpa [List.getD] using zipWith_getD f l1 l2 i h1' h2'

/-! ### Concrete instances used by witnesses and counterexamples -/

/-- A node that already has children (`color_ != kInvalid`). -/
def nodeWithChildren : NodeState :=
  { vertex := -1, policy := 0, color := some GoColor.black,
    expandState := ExpandState.kExpanded,
    children := [{ vertex := 16, policy := 1 }] }

/-- A minimal expansion input: a one-point board with a trivially legal
move, no symmetry pruning. -/
def trivialInput : ExpandInput :=
  { toMove := GoColor.black
    boardSize := 1
    numIntersections := 1
    probabilities := fun _ => 1
    passProbability := 0
    netBlackWL := 1/2
    legal := fun _ => true
    safeArea := fun _ => false
    applySymmPruning := false
    symmHashes := fun _ => []
    selfHash := fun _ => 0
    idxToVtx := fun i => (i : Int) + 10 }

/-- A node with some accumulated statistics, used to exercise the
statistics readers at concrete inputs. -/
def sampleStatsNode : NodeState :=
  { vertex := 16, policy := 1/4, color := some GoColor.black,
    expandState := ExpandState.kExpanded,
    visits := 4,
    accumulatedBlackWL := 3,
    accumulatedDraw := 1/2,
    accumulatedBlackFS := 5,
    squaredEvalDiff := 1/8,
    avgBlackOwnership := [1/2],
    runningThreads := 0 }

/-! ### Claims -/

/-- C1: Expansion succeeds at most once per node: `ExpandChildren` called
when the node already has children, or when its expand state is not
`kInitial`, returns `false` and leaves the node (in particular its
children, visits and accumulators) unchanged; `AcquireExpanding` succeeds
exactly on `kInitial`, transitioning it to `kExpanding`, and otherwise
returns `false` without side effects. -/
theorem c1_expansion_at_most_once :
    (∀ (s : NodeState) (inp : ExpandInput), s.haveChildren = true →
        s.expandChildren inp = (false, s)) ∧
    (∀ (s : NodeState) (inp : ExpandInput), s.expandState ≠ ExpandState.kInitial →
        s.expandChildren inp = (false, s)) ∧
    (∀ es : ExpandState, (acquireExpanding es).1 = true ↔ es = ExpandState.kInitial) ∧
    acquireExpanding ExpandState.kInitial = (true, ExpandState.kExpanding) ∧
    (∀ es : ExpandState, es ≠ ExpandState.kInitial → acquireExpanding es = (false, es)) := by
  refine ⟨?_, ?_, ?_, by simp [acquireExpanding], ?_⟩
  · intro s inp h
    simp [NodeState.expandChildren, h]
  · intro s inp h
    by_cases hc : s.haveChildren = true
    · simp [NodeState.expandChildren, hc]
    · simp [NodeState.expandChildren, hc, acquireExpanding, h]
  · intro es
    cases es <;> simp [acquireExpanding]
  · intro es h
    cases es <;> simp_all [acquireExpanding]

/-- Witness for C1 at concrete inputs: a node that already has children,
and an expand state that is already `kExpanded`. -/
theorem c1_expansion_at_most_once_witness :
    nodeWithChildren.expandChildren trivialInput = (false, nodeWithChildren) ∧
    acquireExpanding ExpandState.kExpanded = (false, ExpandState.kExpanded) :=
  ⟨c1_expansion_at_most_once.1 nodeWithChildren trivialInput (by decide),
   c1_expansion_at_most_once.2.2.2.2 ExpandState.kExpanded (by decide)⟩

/-- C3: one `Node::Update(evals)` call increments `visits` by exactly 1,
adds `old_delta * new_delta` to `squared_eval_diff` (with `old_delta`
zero on the first visit), adds the three evaluation components exactly
once each to their accumulators, and moves every per-intersection
ownership mean by `(eval_owner - mean) / (visits + 1)`, where `visits`
and the accumulators denote the values before the call. -/
theorem c3_update_components (s : NodeState) (e : NodeEvals) :
    (s.update e).visits = s.visits + 1 ∧
    (s.update e).squaredEvalDiff = s.squaredEvalDiff +
        (if 0 < s.visits then e.blackWL - s.accumulatedBlackWL / (s.visits : ℚ) else 0) *
          (e.blackWL - (s.accumulatedBlackWL + e.blackWL) / ((s.visits : ℚ) + 1)) ∧
    (s.update e).accumulatedBlackWL = s.accumulatedBlackWL + e.blackWL ∧
    (s.update e).accumulatedDraw = s.accumulatedDraw + e.draw ∧
    (s.update e).accumulatedBlackFS = s.accumulatedBlackFS + e.blackFinalScore ∧
    ∀ i : Nat, i < s.avgBlackOwnership.length → i < e.blackOwnership.length →
      (s.update e).avgBlackOwnership.getD i 0 =
        s.avgBlackOwnership.getD i 0 +
          (e.blackOwnership.getD i 0 - s.avgBlackOwnership.getD i 0) / ((s.visits : ℚ) + 1) := by
  refine ⟨rfl, ?_, rfl, rfl, rfl, ?_⟩
  · simp [NodeState.update, welfordDelta]
  · intro i h1 h2
    simpa [NodeState.update] using
      zipWith_getD (fun avg own => avg + (own - avg) / ((s.visits : ℚ) + 1))
        s.avgBlackOwnership e.blackOwnership i h1 h2

/-- Witness for C3: a concrete node with one prior visit and a concrete
evaluation, checking every component including the ownership mean at
index 0. -/
theorem c3_update_components_witness :
    ((sampleStatsNode.update ⟨1, 0, 2, [1]⟩).visits = sampleStatsNode.visits + 1) ∧
    (sampleStatsNode.update ⟨1, 0, 2, [1]⟩).avgBlackOwnership.getD 0 0 =
      sampleStatsNode.avgBlackOwnership.getD 0 0 +
        (([(1 : ℚ)].getD 0 0 - sampleStatsNode.avgBlackOwnership.getD 0 0) /
          ((sampleStatsNode.visits : ℚ) + 1)) :=
  ⟨(c3_update_components sampleStatsNode ⟨1, 0, 2, [1]⟩).1,
   (c3_update_components sampleStatsNode ⟨1, 0, 2, [1]⟩).2.2.2.2.2 0
     (by decide) (by decide)⟩

/-- C7: with virtual loss enabled, `GetWL` divides by
`visits + 3·running_threads`, and exactly for the White (opposite-color)
reader it first adds `3·running_threads` to the Black-perspective
accumulator; with virtual loss disabled, or with no running threads,
`GetWL(Black) = acc/visits` and `GetWL(White) = 1 - acc/visits`. -/
theorem c7_virtual_loss (s : NodeState) :
    s.getWL GoColor.black true =
        s.accumulatedBlackWL / ((s.visits : ℚ) + 3 * (s.runningThreads : ℚ)) ∧
    s.getWL GoColor.white true =
        1 - (s.accumulatedBlackWL + 3 * (s.runningThreads : ℚ)) /
              ((s.visits : ℚ) + 3 * (s.runningThreads : ℚ)) ∧
    s.getWL GoColor.black false = s.accumulatedBlackWL / (s.visits : ℚ) ∧
    s.getWL GoColor.white false = 1 - s.accumulatedBlackWL / (s.visits : ℚ) ∧
    (s.runningThreads = 0 →
        s.getWL GoColor.black true = s.accumulatedBlackWL / (s.visits : ℚ) ∧
        s.getWL GoColor.white true = 1 - s.accumulatedBlackWL / (s.visits : ℚ)) := by
  refine ⟨?_, ?_, ?_, ?_, ?_⟩
  · simp [NodeState.getWL, NodeState.getVirtualLoss, NodeState.getVisits]
  · simp [NodeState.getWL, NodeState.getVirtualLoss, NodeState.getVisits]
  · simp [NodeState.getWL, NodeState.getVisits]
  · simp [NodeState.getWL, NodeState.getVisits]
  · intro h
    constructor <;>
      simp [NodeState.getWL, NodeState.getVirtualLoss, NodeState.getVisits, h]

/-- Witness for C7: the no-running-threads conjunct at a concrete node. -/
theorem c7_virtual_loss_witness :
    sampleStatsNode.getWL GoColor.black true =
        sampleStatsNode.accumulatedBlackWL / (sampleStatsNode.visits : ℚ) ∧
    sampleStatsNode.getWL GoColor.white true =
        1 - sampleStatsNode.accumulatedBlackWL / (sampleStatsNode.visits : ℚ) :=
  (c7_virtual_loss sampleStatsNode).2.2.2.2 (by decide)

/-- C9: the statistics readers `GetFinalScore` and `GetDraw` divide by
`GetVisits()` without a guard, so in the total embedding their
division-by-zero branch is `none` exactly when `visits = 0`; a freshly
constructed node (never backed up) has `visits = 0`, so the branch is
reachable. -/
theorem c9_unguarded_division (s : NodeState) (v : Int) (p : ℚ) (c : GoColor) :
    (s.getFinalScoreChecked c = none ↔ s.visits = 0) ∧
    (s.getDrawChecked = none ↔ s.visits = 0) ∧
    (mkNode v p).visits = 0 ∧
    (mkNode v p).getFinalScoreChecked c = none ∧
    (mkNode v p).getDrawChecked = none := by
  refine ⟨?_, ?_, rfl, ?_, ?_⟩ <;>
    simp [NodeState.getFinalScoreChecked, NodeState.getDrawChecked,
      NodeState.getVisits, mkNode]

theorem applyUpdates_cons (s : NodeState) (e : NodeEvals) (t : List NodeEvals) :
    applyUpdates s (e :: t) = applyUpdates (s.update e) t :=
  rfl

theorem applyUpdates_visits (evs : List NodeEvals) :
    ∀ s : NodeState, (applyUpdates s evs).visits = s.visits + evs.length := by
  induction evs with
  | nil => intro s; simp [applyUpdates]
  | cons e t ih =>
      intro s
      rw [applyUpdates_cons, ih]
      simp [NodeState.update]
      omega

theorem acc_bound_fold (acc : NodeState → ℚ) (val : NodeEvals → ℚ)
    (hstep : ∀ (s : NodeState) (e : NodeEvals), acc (s.update e) = acc s + val e) :
    ∀ (evs : List NodeEvals) (s : NodeState),
      (∀ e ∈ evs, |val e| ≤ 1) → |acc s| ≤ (s.visits : ℚ) →
      |acc (applyUpdates s evs)| ≤ ((applyUpdates s evs).visits : ℚ) := by
  intro evs
  induction evs with
  | nil => intro s _ h; simpa [applyUpdates] using h
  | cons e t ih =>
      intro s hb h
      rw [applyUpdates_cons]
      apply ih
      · intro x hx
        exact hb x (List.mem_cons_of_mem _ hx)
      · have h1 : |val e| ≤ 1 := hb e (List.mem_cons_self e t)
        have h2 : ((s.update e).visits : ℚ) = (s.visits : ℚ) + 1 := by
          simp [NodeState.update]
        calc |acc (s.update e)| = |acc s + val e| := by rw [hstep]
          _ ≤ |acc s| + |val e| := abs_add _ _
          _ ≤ (s.visits : ℚ) + 1 := by linarith
          _ = ((s.update e).visits : ℚ) := h2.symm

/-- An evaluation whose win-loss and draw components are in `[0, 1]` but
whose final score (a point count, not a probability) is `2`. -/
def fsEvals : NodeEvals :=
  { blackWL := 0, draw := 0, blackFinalScore := 2, blackOwnership := [] }

/-- C4 counterexample: a single `Update` whose black win-loss and draw lie
in `[0, 1]` but whose black final score is `2` (a score lead, which
`Update` adds verbatim) produces `accumulated_black_fs = 2 > 1 = visits`,
refuting the claimed bound `|accumulated_black_fs| ≤ visits`. -/
theorem c4_counterexample :
    (0 ≤ fsEvals.blackWL ∧ fsEvals.blackWL ≤ 1 ∧
        0 ≤ fsEvals.draw ∧ fsEvals.draw ≤ 1) ∧
    (applyUpdates (mkNode 0 0) [fsEvals]).visits = 1 ∧
    (applyUpdates (mkNode 0 0) [fsEvals]).accumulatedBlackFS = 2 ∧
    ¬(|(applyUpdates (mkNode 0 0) [fsEvals]).accumulatedBlackFS| ≤
        ((applyUpdates (mkNode 0 0) [fsEvals]).visits : ℚ)) := by
  refine ⟨⟨le_refl _, by simp [fsEvals], le_refl _, by simp [fsEvals]⟩, rfl, ?_, ?_⟩ <;>
    simp [applyUpdates, NodeState.update, fsEvals, mkNode]

/-- C4 (amended): across any sequence of `Update` calls starting from a
fresh node, with per-call black win-loss and draw in `[0, 1]`, `visits`
counts the calls (hence is monotonically nondecreasing from 0) and
`|accumulated_black_wl| ≤ visits` and `|accumulated_draw| ≤ visits` hold
after every call; the analogous bound for `accumulated_black_fs` holds
additionally whenever every per-call black final score lies in `[-1, 1]`
(it fails for larger scores, see the counterexample). -/
theorem c4_backup_monotonicity (evs : List NodeEvals) (v : Int) (p : ℚ)
    (hwl : ∀ e ∈ evs, 0 ≤ e.blackWL ∧ e.blackWL ≤ 1)
    (hdraw : ∀ e ∈ evs, 0 ≤ e.draw ∧ e.draw ≤ 1) (k : Nat) :
    (applyUpdates (mkNode v p) (evs.take k)).visits = min k evs.length ∧
    (applyUpdates (mkNode v p) (evs.take k)).visits ≤
      (applyUpdates (mkNode v p) (evs.take (k + 1))).visits ∧
    |(applyUpdates (mkNode v p) (evs.take k)).accumulatedBlackWL| ≤
      ((applyUpdates (mkNode v p) (evs.take k)).visits : ℚ) ∧
    |(applyUpdates (mkNode v p) (evs.take k)).accumulatedDraw| ≤
      ((applyUpdates (mkNode v p) (evs.take k)).visits : ℚ) ∧
    ((∀ e ∈ evs, |e.blackFinalScore| ≤ 1) →
      |(applyUpdates (mkNode v p) (evs.take k)).accumulatedBlackFS| ≤
        ((applyUpdates (mkNode v p) (evs.take k)).visits : ℚ)) := by
  have hv : ∀ n : Nat, (applyUpdates (mkNode v p) (evs.take n)).visits = min n evs.length := by
    intro n
    rw [applyUpdates_visits]
    simp [mkNode]
  refine ⟨hv k, ?_, ?_, ?_, ?_⟩
  · rw [hv k, hv (k + 1)]
    omega
  · refine acc_bound_fold (fun s => s.accumulatedBlackWL) (fun e => e.blackWL)
      (fun s e => by simp [NodeState.update]) (evs.take k) (mkNode v p) ?_ (by simp [mkNode])
    intro e he
    have h := hwl e (List.take_subset k evs he)
    exact abs_le.mpr ⟨by linarith [h.1], h.2⟩
  · refine acc_bound_fold (fun s => s.accumulatedDraw) (fun e => e.draw)
      (fun s e => by simp [NodeState.update]) (evs.take k) (mkNode v p) ?_ (by simp [mkNode])
    intro e he
    have h := hdraw e (List.take_subset k evs he)
    exact abs_le.mpr ⟨by linarith [h.1], h.2⟩
  · intro hfs
    refine acc_bound_fold (fun s => s.accumulatedBlackFS) (fun e => e.blackFinalScore)
      (fun s e => by simp [NodeState.update]) (evs.take k) (mkNode v p) ?_ (by simp [mkNode])
    intro e he
    exact hfs e (List.take_subset k evs he)

/-- An all-zero evaluation, all of whose components are inside `[0, 1]`. -/
def zeroEvals : NodeEvals :=
  { blackWL := 0, draw := 0, blackFinalScore := 0, blackOwnership := [] }

/-- Witness for C4 at a concrete one-call sequence. -/
theorem c4_backup_monotonicity_witness :
    (applyUpdates (mkNode 0 0) ([zeroEvals].take 1)).visits = min 1 [zeroEvals].length ∧
    |(applyUpdates (mkNode 0 0) ([zeroEvals].take 1)).accumulatedBlackWL| ≤
      ((applyUpdates (mkNode 0 0) ([zeroEvals].take 1)).visits : ℚ) := by
  have h := c4_backup_monotonicity [zeroEvals] 0 0
    (by intro e he; rw [List.mem_singleton] at he; subst he; simp [zeroEvals])
    (by intro e he; rw [List.mem_singleton] at he; subst he; simp [zeroEvals]) 1
  exact ⟨h.1, h.2.2.1⟩

theorem invalidateStatus_eq (st : StatusType) :
    invalidateStatus st = StatusType.kInvalid := by
  cases st <;> rfl

theorem length_filter_not {α : Type} (p : α → Bool) (l : List α) :
    (l.filter (fun a => !(p a))).length = l.length - (l.filter p).length := by
  induction l with
  | nil => rfl
  | cons a t ih =>
      have hle := List.length_filter_le p t
      by_cases h : p a = true
      · simp [List.filter_cons, h, ih]
        try omega
      · simp [List.filter_cons, h, ih]
        try omega

/-- C8: on a root all of whose children are still valid,
`KillRootSuperkos` removes exactly the non-pass children whose move
repeats a position of the ko-hash history: the surviving list is the
order-preserving filter of the original children by the negated superko
predicate, and its length drops by exactly the number `k` of superko
children. -/
theorem c8_superko_removal (forkPlay : Int → SuperkoState) (children : List Edge)
    (hvalid : ∀ e ∈ children, e.status ≠ StatusType.kInvalid) :
    killRootSuperkos forkPlay children =
        children.filter (fun e => !(superkoKill forkPlay e)) ∧
    (killRootSuperkos forkPlay children).length =
        children.length - (children.filter (fun e => superkoKill forkPlay e)).length := by
  have hmain : killRootSuperkos forkPlay children =
      children.filter (fun e => !(superkoKill forkPlay e)) := by
    induction children with
    | nil => rfl
    | cons e t ih =>
        have he : e.status ≠ StatusType.kInvalid := hvalid e (List.mem_cons_self e t)
        have ht : ∀ x ∈ t, x.status ≠ StatusType.kInvalid := fun x hx =>
          hvalid x (List.mem_cons_of_mem _ hx)
        have ihr := ih ht
        by_cases hk : superkoKill forkPlay e = true
        · simpa [killRootSuperkos, List.filter_cons, hk, invalidateStatus_eq] using ihr
        · simpa [killRootSuperkos, List.filter_cons, hk, he] using ihr
  refine ⟨hmain, ?_⟩
  rw [hmain, length_filter_not]

/-- A forked-state oracle for the witness: playing vertex 12 repeats the
earlier position with ko hash 7; every other move reaches a fresh hash. -/
def forkPlayW : Int → SuperkoState := fun v =>
  if v = 12 then { koHashHistory := [7, 5, 7], koHash := 7 }
  else { koHashHistory := [7, 5, 9], koHash := 9 }

/-- The witness root's children: one plain move, one superko move, pass. -/
def c8children : List Edge :=
  [{ vertex := 11, policy := 1 }, { vertex := 12, policy := 1 }, { vertex := kPass, policy := 0 }]

/-- Witness for C8: the concrete root loses exactly its one superko child. -/
theorem c8_superko_removal_witness :
    killRootSuperkos forkPlayW c8children =
        c8children.filter (fun e => !(superkoKill forkPlayW e)) ∧
    (killRootSuperkos forkPlayW c8children).length =
        c8children.length - (c8children.filter (fun e => superkoKill forkPlayW e)).length :=
  c8_superko_removal forkPlayW c8children (by decide)

/-- An inflated, active, unvisited child at vertex 3: the configuration
left at the root right after expansion and inflation, before any backup;
`GetBestMove` falls back to the highest-prior active child there, so
vertex 3 is the best move the source would compute. -/
def klChild : Edge :=
  { vertex := 3, policy := 1, inflated := true, status := StatusType.kActive, visits := 0 }

/-- C10 counterexample: with a single active, unvisited child (and the
best move pointing at it), both the summed visits and the best child's
visits are zero, and `ComputeKlDivergence` returns the sentinel `0` —
not `-1` as the claim requires whenever the sum is zero: the
`parentvisits == best_visits` branch is checked first. -/
theorem c10_counterexample :
    klParentVisits [klChild] = 0 ∧
    klBestVisits [klChild] 3 = 0 ∧
    computeKlDivergence [klChild] 3 = 0 ∧
    computeKlDivergence [klChild] 3 ≠ -1 := by
  refine ⟨rfl, rfl, ?_, ?_⟩
  · simp [computeKlDivergence, klParentVisits, klBestVisits, klChild]
  · simp [computeKlDivergence, klParentVisits, klBestVisits, klChild]
    try norm_num

/-- C10 (amended): `ComputeKlDivergence` returns the sentinel `0`
whenever the best move's visits equal the summed active visits (this
branch has priority, and in particular fires when both counts are zero);
it returns the sentinel `-1` when the counts differ and one of them is
zero; and only in the remaining cases it returns
`-log(best_visits / parent_visits)`. -/
theorem c10_kl_branches (children : List Edge) (bestVtx : Int) :
    (klParentVisits children = klBestVisits children bestVtx →
        computeKlDivergence children bestVtx = 0) ∧
    (klParentVisits children ≠ klBestVisits children bestVtx →
        (klParentVisits children = 0 ∨ klBestVisits children bestVtx = 0) →
        computeKlDivergence children bestVtx = -1) ∧
    (klParentVisits children ≠ klBestVisits children bestVtx →
        klParentVisits children ≠ 0 → klBestVisits children bestVtx ≠ 0 →
        computeKlDivergence children bestVtx =
          -Real.log ((klBestVisits children bestVtx : ℝ) /
            (klParentVisits children : ℝ))) := by
  refine ⟨?_, ?_, ?_⟩
  · intro h1
    simp [computeKlDivergence, h1]
  · intro h1 h2
    simp [computeKlDivergence, h1, h2]
  · intro h1 h2 h3
    simp [computeKlDivergence, h1, h2, h3]

/-- Witness for C10: the empty children list has equal (zero) counts, so
the amended first branch applies. -/
theorem c10_kl_branches_witness :
    computeKlDivergence [] 5 = 0 :=
  (c10_kl_branches [] 5).1 rfl

theorem sortNodelist_perm (l : List (ℚ × Int)) : List.Perm (sortNodelist l) l :=
  List.perm_insertionSort pairDescGe l

theorem policySum_linkNodeList (l : List (ℚ × Int)) :
    policySum (linkNodeList l) = (l.map Prod.fst).sum := by
  unfold policySum linkNodeList
  rw [List.map_map]
  exact ((sortNodelist_perm l).map Prod.fst).sum_eq

theorem vertexMem_linkNodeList (l : List (ℚ × Int)) (v : Int) :
    v ∈ (linkNodeList l).map Edge.vertex ↔ v ∈ l.map Prod.snd := by
  unfold linkNodeList
  rw [List.map_map]
  exact ((sortNodelist_perm l).map Prod.snd).mem_iff

theorem sum_map_div (l : List ℚ) (c : ℚ) :
    (l.map (fun x => x / c)).sum = l.sum / c := by
  induction l with
  | nil => simp
  | cons a t ih => simp [ih, add_div]

theorem expandChildren_true_iff (s : NodeState) (inp : ExpandInput) :
    (s.expandChildren inp).1 = true ↔
      s.haveChildren = false ∧ s.expandState = ExpandState.kInitial := by
  unfold NodeState.expandChildren
  by_cases hc : s.haveChildren = true
  · simp [hc]
  · have hc' : s.haveChildren = false := by simpa using hc
    by_cases he : s.expandState = ExpandState.kInitial
    · simp [hc', acquireExpanding, he]
    · simp [hc', acquireExpanding, he]

theorem expandChildren_children (s : NodeState) (inp : ExpandInput)
    (h : (s.expandChildren inp).1 = true) :
    (s.expandChildren inp).2.children = linkNodeList (normalizedNodelist inp) := by
  obtain ⟨hc, he⟩ := (expandChildren_true_iff s inp).mp h
  simp [NodeState.expandChildren, hc, acquireExpanding, he]

theorem expandNodelist_mass (inp : ExpandInput)
    (hnoprune : (buildCandidates inp).legalAccumulate =
        ((buildCandidates inp).nodelist.map Prod.fst).sum) :
    ((expandNodelist inp).1.map Prod.fst).sum = (expandNodelist inp).2 := by
  unfold expandNodelist
  dsimp only
  split
  · simp [hnoprune]
  · simp [hnoprune]

theorem expandNodelist_ne_nil (inp : ExpandInput) : (expandNodelist inp).1 ≠ [] := by
  unfold expandNodelist
  dsimp only
  split
  · simp
  · rename_i hcond
    have h2 : ¬((buildCandidates inp).nodelist.isEmpty = true) := fun hem => hcond (Or.inr hem)
    simpa [List.isEmpty_iff] using h2

theorem normalizedNodelist_sum (inp : ExpandInput)
    (hnoprune : (buildCandidates inp).legalAccumulate =
        ((buildCandidates inp).nodelist.map Prod.fst).sum) :
    ((normalizedNodelist inp).map Prod.fst).sum = 1 := by
  have hA := expandNodelist_mass inp hnoprune
  have hne := expandNodelist_ne_nil inp
  unfold normalizedNodelist
  dsimp only
  by_cases hf : (expandNodelist inp).2 < 1 / 100000000
  · rw [if_pos hf]
    have hmap : (((expandNodelist inp).1.map
        (fun p : ℚ × Int => ((1 : ℚ) / (((expandNodelist inp).1.length : ℚ)), p.2))).map
          Prod.fst) =
        (expandNodelist inp).1.map (fun _ => (1 : ℚ) / (((expandNodelist inp).1.length : ℚ))) := by
      rw [List.map_map]
      rfl
    rw [hmap]
    have hlen : (((expandNodelist inp).1.length : ℚ)) ≠ 0 :=
      Nat.cast_ne_zero.mpr (List.length_pos.mpr hne).ne'
    rw [List.map_const', List.sum_replicate, nsmul_eq_mul]
    field_simp
  · rw [if_neg hf]
    have hmap : (((expandNodelist inp).1.map
        (fun p : ℚ × Int => (p.1 / (expandNodelist inp).2, p.2))).map Prod.fst) =
        ((expandNodelist inp).1.map Prod.fst).map (fun x => x / (expandNodelist inp).2) := by
      rw [List.map_map, List.map_map]
      rfl
    rw [hmap, sum_map_div, hA]
    have hpos : (0 : ℚ) < (expandNodelist inp).2 :=
      lt_of_lt_of_le (by norm_num) (not_lt.mp hf)
    exact div_self hpos.ne'

theorem candStep_nodelist (inp : ExpandInput) (a : CandAccum) (idx : Nat) :
    (candStep inp a idx).nodelist = a.nodelist ∨
    (candStep inp a idx).nodelist =
      a.nodelist ++ [(inp.probabilities idx, inp.idxToVtx idx)] := by
  unfold candStep
  dsimp only
  repeat' split
  all_goals first
    | exact Or.inl rfl
    | exact Or.inr rfl

theorem buildCandidates_vtx (inp : ExpandInput) :
    ∀ q ∈ (buildCandidates inp).nodelist,
      ∃ i, i < inp.numIntersections ∧ q.2 = inp.idxToVtx i := by
  have hgen : ∀ (l : List Nat) (a : CandAccum),
      (∀ i ∈ l, i < inp.numIntersections) →
      (∀ q ∈ a.nodelist, ∃ i, i < inp.numIntersections ∧ q.2 = inp.idxToVtx i) →
      ∀ q ∈ (l.foldl (candStep inp) a).nodelist,
        ∃ i, i < inp.numIntersections ∧ q.2 = inp.idxToVtx i := by
    intro l
    induction l with
    | nil => intro a _ ha; simpa using ha
    | cons j t ih =>
        intro a hl ha
        rw [List.foldl_cons]
        apply ih
        · intro i hi
          exact hl i (List.mem_cons_of_mem _ hi)
        · rcases candStep_nodelist inp a j with h | h
          · rw [h]; exact ha
          · rw [h]
            intro q hq
            rcases List.mem_append.mp hq with hq | hq
            · exact ha q hq
            · rw [List.mem_singleton] at hq
              subst hq
              exact ⟨j, hl j (List.mem_cons_self j t), rfl⟩
  exact hgen (List.range inp.numIntersections) ⟨[], 0, []⟩
    (fun i hi => List.mem_range.mp hi) (by simp)

theorem normalizedNodelist_snd (inp : ExpandInput) :
    (normalizedNodelist inp).map Prod.snd = (expandNodelist inp).1.map Prod.snd := by
  unfold normalizedNodelist
  dsimp only
  split <;> (rw [List.map_map]; rfl)

/-- An expansion input on a 2-point board where symmetry pruning drops
the second point (its symmetry hash `42` matches the move hash recorded
for the first point) even though it carries policy mass `1/4`. -/
def symmPruneInput : ExpandInput :=
  { toMove := GoColor.black
    boardSize := 2
    numIntersections := 2
    probabilities := fun _ => 1/4
    passProbability := 0
    netBlackWL := 1/2
    legal := fun _ => true
    safeArea := fun _ => false
    applySymmPruning := true
    symmHashes := fun idx => if idx = 0 then [1, 2, 3, 4, 5, 6, 7] else [42, 2, 3, 4, 5, 6, 7]
    selfHash := fun idx => if idx = 0 then 42 else 43
    idxToVtx := fun i => (i : Int) + 10 }

theorem buildCandidates_symmPrune :
    buildCandidates symmPruneInput =
      { nodelist := [(1/4, 10)], legalAccumulate := 1/2, movesHash := [42] } := by
  show (List.range 2).foldl (candStep symmPruneInput) ⟨[], 0, []⟩ = _
  norm_num [List.range_succ, candStep, symmPruneInput]

/-- C2 counterexample: on `symmPruneInput` the expansion succeeds, yet
the stored children's policies sum to `1/2`, far outside
`[1 - 1e-5, 1 + 1e-5]`: the pruned candidate's policy mass `1/4` entered
`legal_accumulate` but its node was dropped, so renormalization divides
the kept mass `1/4` (plus a zero pass probability) by `1/2`. -/
theorem c2_policy_sum_counterexample :
    ((mkNode (-1) 0).expandChildren symmPruneInput).1 = true ∧
    policySum ((mkNode (-1) 0).expandChildren symmPruneInput).2.children = 1/2 ∧
    ¬((1 - 1/100000 : ℚ) ≤ 1/2 ∧ (1/2 : ℚ) ≤ 1 + 1/100000) := by
  have hsuccess : ((mkNode (-1) 0).expandChildren symmPruneInput).1 = true := by
    rw [expandChildren_true_iff]
    exact ⟨rfl, rfl⟩
  refine ⟨hsuccess, ?_, by norm_num⟩
  rw [expandChildren_children _ _ hsuccess, policySum_linkNodeList]
  have hexp : expandNodelist symmPruneInput = ([(1/4, 10), (0, kPass)], 1/2) := by
    unfold expandNodelist
    rw [buildCandidates_symmPrune]
    norm_num [symmPruneInput]
  unfold normalizedNodelist
  rw [hexp]
  norm_num [kPass]

/-- C2 (amended): after every successful `ExpandChildren` in which the
accumulated legal-policy mass equals the total policy mass of the
retained candidates — in particular whenever symmetry pruning removed no
legal policy mass, e.g. with pruning disabled — the stored children's
policies sum to exactly 1 (the rational embedding is exact, so the sum
lies inside `[1 - 1e-5, 1 + 1e-5]`), including the uniform-fallback case
where the accumulated mass is below `1e-8`.  When symmetry pruning drops
candidates carrying positive policy mass the sum instead equals
`kept/accumulated` and can leave the interval (see the counterexample). -/
theorem c2_policy_sum_amended (s : NodeState) (inp : ExpandInput)
    (hsuccess : (s.expandChildren inp).1 = true)
    (hnoprune : (buildCandidates inp).legalAccumulate =
        ((buildCandidates inp).nodelist.map Prod.fst).sum) :
    policySum (s.expandChildren inp).2.children = 1 := by
  rw [expandChildren_children s inp hsuccess, policySum_linkNodeList]
  exact normalizedNodelist_sum inp hnoprune

/-- Witness for C2 (amended) at the concrete no-pruning input. -/
theorem c2_policy_sum_amended_witness :
    policySum ((mkNode (-1) 0).expandChildren trivialInput).2.children = 1 :=
  c2_policy_sum_amended (mkNode (-1) 0) trivialInput
    (by rw [expandChildren_true_iff]; exact ⟨rfl, rfl⟩)
    (by simp [buildCandidates, candStep, trivialInput, List.range_succ])

/-- C5: after every successful expansion, a pass child is stored if and
only if the non-pass candidate list is empty or its length is at most
`3·N/4` (integer division, `N` the number of intersections) — so with
more than `3·N/4` candidates no pass child exists, and with no candidate
the pass child exists unconditionally.  The hypothesis records that board
vertices are distinct from the pass sentinel. -/
theorem c5_pass_child (s : NodeState) (inp : ExpandInput)
    (hvtx : ∀ i, i < inp.numIntersections → inp.idxToVtx i ≠ kPass)
    (hsuccess : (s.expandChildren inp).1 = true) :
    (kPass ∈ (s.expandChildren inp).2.children.map Edge.vertex ↔
      ((buildCandidates inp).nodelist = [] ∨
        (buildCandidates inp).nodelist.length ≤ 3 * inp.numIntersections / 4)) := by
  rw [expandChildren_children s inp hsuccess]
  rw [vertexMem_linkNodeList]
  have hsnd := normalizedNodelist_snd inp
  rw [show (kPass ∈ (normalizedNodelist inp).map Prod.snd) =
      (kPass ∈ (expandNodelist inp).1.map Prod.snd) from by rw [hsnd]]
  have hnopass : kPass ∉ (buildCandidates inp).nodelist.map Prod.snd := by
    intro hmem
    rcases List.mem_map.mp hmem with ⟨q, hq, hq2⟩
    rcases buildCandidates_vtx inp q hq with ⟨i, hi, hv⟩
    exact hvtx i hi (by rw [← hv, hq2])
  unfold expandNodelist
  dsimp only
  split
  · rename_i hcond
    simp only [List.map_append, List.mem_append]
    constructor
    · intro _
      rcases hcond with h | h
      · exact Or.inr (Nat.le_of_not_lt h)
      · exact Or.inl (List.isEmpty_iff.mp h)
    · intro _
      right
      simp
  · rename_i hcond
    constructor
    · intro hmem
      exact absurd hmem hnopass
    · intro hor
      exfalso
      rcases hor with h | h
      · exact hcond (Or.inr (List.isEmpty_iff.mpr h))
      · exact hcond (Or.inl (Nat.not_lt.mpr h))

/-- Witness for C5: on the one-point board input the single candidate
exceeds `3·1/4 = 0`, so no pass child is stored. -/
theorem c5_pass_child_witness :
    kPass ∈ ((mkNode (-1) 0).expandChildren trivialInput).2.children.map Edge.vertex ↔
      ((buildCandidates trivialInput).nodelist = [] ∨
        (buildCandidates trivialInput).nodelist.length ≤
          3 * trivialInput.numIntersections / 4) :=
  c5_pass_child (mkNode (-1) 0) trivialInput
    (by intro i hi; simp [trivialInput, Nat.lt_one_iff] at hi; subst hi; simp [trivialInput, kPass])
    (by rw [expandChildren_true_iff]; exact ⟨rfl, rfl⟩)

/-- C6: `GetLcb(color)` returns the node's prior policy minus the large
constant `1e6` whenever `visits ≤ 1`; for `visits > 1` it returns
`mean - z·sqrt(var/visits)` with `mean` the win-loss value for the given
color, `var = squared_eval_diff/(visits-1)`, and `z` the cached
t-quantile at index `visits - 1`, the table being built from
`z[i] = NormToT(Φ⁻¹(1-α), i)` for `i ∈ [0, 1000)` with the last entry
reused for all larger indices. -/
theorem c6_lcb (s : NodeState) (color : GoColor) (alpha : ℝ) :
    (s.getVisits ≤ 1 → s.getLcb color alpha = (s.policy : ℝ) - 1000000) ∧
    (1 < s.getVisits →
        s.getLcb color alpha =
          ((s.getWL color false : ℚ) : ℝ) -
            cachedTQuantile alpha ((s.getVisits : Int) - 1) *
              Real.sqrt (((s.squaredEvalDiff : ℝ) / ((s.getVisits : ℝ) - 1)) /
                (s.getVisits : ℝ))) ∧
    (∀ i : Nat, i < 1000 →
        zLookupTable alpha i = normToTApprox (normalCdfInverse (1 - alpha)) (i : ℝ)) ∧
    (∀ v : Int, (1000 : Int) ≤ v → cachedTQuantile alpha v = zLookupTable alpha 999) := by
  refine ⟨?_, ?_, ?_, ?_⟩
  · intro h
    simp [NodeState.getLcb, h]
  · intro h
    have h1 : ¬(s.getVisits ≤ 1) := by omega
    have hvar : ((s.getLcbVariance 1 s.getVisits : ℚ) : ℝ) =
        (s.squaredEvalDiff : ℝ) / ((s.getVisits : ℝ) - 1) := by
      unfold NodeState.getLcbVariance
      rw [if_pos h]
      push_cast
      ring
    unfold NodeState.getLcb
    dsimp only
    rw [if_neg h1, hvar]
  · intro i _
    rfl
  · intro v hv
    unfold cachedTQuantile
    rw [if_neg (by omega), if_neg (by simp only [lcbEntrySize]; omega)]
    rfl

/-- Witness for C6: an unvisited node takes the `visits ≤ 1` branch; the
four-visit `sampleStatsNode` takes the t-quantile branch. -/
theorem c6_lcb_witness :
    (mkNode 7 (1/4)).getLcb GoColor.black (1/20) =
        (((mkNode 7 (1/4)).policy : ℚ) : ℝ) - 1000000 ∧
    sampleStatsNode.getLcb GoColor.black (1/20) =
        ((sampleStatsNode.getWL GoColor.black false : ℚ) : ℝ) -
          cachedTQuantile (1/20) ((sampleStatsNode.getVisits : Int) - 1) *
            Real.sqrt (((sampleStatsNode.squaredEvalDiff : ℝ) /
              ((sampleStatsNode.getVisits : ℝ) - 1)) / (sampleStatsNode.getVisits : ℝ)) :=
  ⟨(c6_lcb (mkNode 7 (1/4)) GoColor.black (1/20)).1 (by decide),
   (c6_lcb sampleStatsNode GoColor.black (1/20)).2.1 (by decide)⟩

end Sayuri
